import Mathlib

set_option linter.unusedSectionVars false

/-!
Verification of the Spectra implicitly-restarted Arnoldi core
(`GenEigsBase.h` and `LinAlg/UpperHessenbergEigen.h`).

The development is a shallow embedding of the two headers:

* The scalar type of the C++ templates is modelled by an arbitrary
  `LinearOrderedField α` (the templates are generic in `Scalar`;
  instantiating the rationals for `α` makes every definition executable).
* `std::complex<Scalar>` becomes the pair structure `Cplx α`;
  `std::norm` (the squared magnitude, which is a polynomial in the
  components) becomes `Cplx.normSq`.  The *magnitude* `std::abs`,
  `Eigen`'s vector `normalize()`, `std::sqrt`, machine epsilon and
  `std::numeric_limits::min()` are irrational / floating-point
  operations; each is passed as an explicit parameter (`cabs`,
  `msqrt`, `eps23`, `near0`, ...) exactly where the source invokes it.
* The external collaborators that are not part of the two source
  files (the Arnoldi factorization engine, the shift-QR kernels
  `UpperHessenbergQR` / `DoubleShiftQR`, the Schur reductions
  `UpperHessenbergSchur` / `Eigen::ComplexSchur`, `Eigen` dense
  storage, `SortEigenvalue`) are likewise parameters: only the code
  of the two headers is embedded, and what it hands to a collaborator
  is recorded rather than recomputed.
* C++ loops are embedded as structurally recursive functions on an
  explicit iteration-count argument; each wrapper passes the exact
  bound taken from the loop header, so the recursion mirrors the
  loop and all definitions evaluate by `decide`.
* Eigen vectors are read through total functions `ℕ → Cplx α`
  modelling the underlying storage: an out-of-range subscript is a
  read of *some* value, which the embedding captures by quantifying
  over all memory contents.
-/

namespace Spectra

/-- `std::complex<Scalar>` as a pair of components. -/
structure Cplx (α : Type) where
  re : α
  im : α
deriving DecidableEq, Repr

variable {α : Type} [LinearOrderedField α] [DecidableEq α]

/-- `Eigen::numext::conj`: componentwise conjugation. -/
def Cplx.conj (z : Cplx α) : Cplx α := ⟨z.re, -z.im⟩

/-- `std::norm`: squared magnitude `re² + im²`. -/
def Cplx.normSq (z : Cplx α) : α := z.re * z.re + z.im * z.im

/-- `is_complex(v)` from `GenEigsBase.h`: exact test `v.imag() != 0`. -/
def isComplexC (v : Cplx α) : Prop := v.im ≠ 0

instance (v : Cplx α) : Decidable (isComplexC v) := by
  unfold isComplexC
  infer_instance

/-- `is_conj(v1, v2)` from `GenEigsBase.h`: exact test `v1 == conj(v2)`. -/
def isConjC (v1 v2 : Cplx α) : Prop := v1 = Cplx.conj v2

instance (v1 v2 : Cplx α) : Decidable (isConjC v1 v2) := by
  unfold isConjC
  infer_instance

/-!
### `RestartArnoldi` (GenEigsBase.h, lines 43–140)

`RestartArnoldi<Scalar>::run` walks the shift indices `i = k, …, ncv-1`
and, per index, asks the external shift-QR engines to perform either a
double-shift step (`DoubleShiftQR` with shift-sum `s` and shift-product
`t`) or a single-shift step (`UpperHessenbergQR` with a real shift).
The complex specialization always performs a single complex-shift step.
The embedding records the sequence of engine invocations (the only
effect of the loop on the factorization goes through those engines).
-/

/-- One invocation of a shift-QR engine issued by the real-scalar
`RestartArnoldi::run`. -/
inductive RestartStep (α : Type) where
  | double (s t : α)
  | single (mu : α)
deriving DecidableEq, Repr

/-- Loop body of the real-scalar `RestartArnoldi::run`, with the number
of remaining loop tests as structural fuel (the loop runs at most
`ncv - k` times since `i` increases by 1 or 2 per iteration). -/
def restartStepsRealAux (ritz : ℕ → Cplx α) (ncv : ℕ) : ℕ → ℕ → List (RestartStep α)
  | 0, _ => []
  | fuel + 1, i =>
    if i < ncv then
      if isComplexC (ritz i) ∧ isConjC (ritz i) (ritz (i + 1)) then
        RestartStep.double (2 * (ritz i).re) (Cplx.normSq (ritz i)) ::
          restartStepsRealAux ritz ncv fuel (i + 2)
      else
        RestartStep.single (ritz i).re :: restartStepsRealAux ritz ncv fuel (i + 1)
    else []

/-- The sequence of shift-QR invocations issued by the real-scalar
`RestartArnoldi::run(ritz_val, k, fac, Q)` where `ncv = ritz_val.size()`. -/
def restartStepsReal (ritz : ℕ → Cplx α) (ncv k : ℕ) : List (RestartStep α) :=
  restartStepsRealAux ritz ncv (ncv - k) k

/-- Loop body of the complex-scalar `RestartArnoldi::run`. -/
def restartStepsCplxAux (ritz : ℕ → Cplx α) (ncv : ℕ) : ℕ → ℕ → List (Cplx α)
  | 0, _ => []
  | fuel + 1, i =>
    if i < ncv then ritz i :: restartStepsCplxAux ritz ncv fuel (i + 1) else []

/-- The sequence of complex shifts issued by the complex-scalar
`RestartArnoldi::run(ritz_val, k, fac, Q)`. -/
def restartStepsCplx (ritz : ℕ → Cplx α) (ncv k : ℕ) : List (Cplx α) :=
  restartStepsCplxAux ritz ncv (ncv - k) k

/-- Indices of `ritz_val` dereferenced by the real-scalar
`RestartArnoldi::run`, honouring the short-circuit of
`is_complex(ritz_val[i]) && is_conj(ritz_val[i], ritz_val[i+1])`:
`ritz_val[i+1]` is read exactly when `ritz_val[i]` is non-real. -/
def restartReadsAux (ritz : ℕ → Cplx α) (ncv : ℕ) : ℕ → ℕ → List ℕ
  | 0, _ => []
  | fuel + 1, i =>
    if i < ncv then
      if isComplexC (ritz i) then
        if isConjC (ritz i) (ritz (i + 1)) then
          i :: (i + 1) :: restartReadsAux ritz ncv fuel (i + 2)
        else
          i :: (i + 1) :: restartReadsAux ritz ncv fuel (i + 1)
      else i :: restartReadsAux ritz ncv fuel (i + 1)
    else []

/-- All indices of `ritz_val` read by `RestartArnoldi<Scalar>::run`
(real scalar) when started at shift index `k`. -/
def restartReads (ritz : ℕ → Cplx α) (ncv k : ℕ) : List ℕ :=
  restartReadsAux ritz ncv (ncv - k) k

theorem restartStepsRealAux_succ (ritz : ℕ → Cplx α) (ncv fuel i : ℕ) :
    restartStepsRealAux ritz ncv (fuel + 1) i =
      if i < ncv then
        if isComplexC (ritz i) ∧ isConjC (ritz i) (ritz (i + 1)) then
          RestartStep.double (2 * (ritz i).re) (Cplx.normSq (ritz i)) ::
            restartStepsRealAux ritz ncv fuel (i + 2)
        else
          RestartStep.single (ritz i).re :: restartStepsRealAux ritz ncv fuel (i + 1)
      else [] := rfl

theorem restartStepsRealAux_stepdown (ritz : ℕ → Cplx α) (ncv : ℕ) :
    ∀ fuel i, ncv - i ≤ fuel →
      restartStepsRealAux ritz ncv (fuel + 1) i = restartStepsRealAux ritz ncv fuel i := by
  intro fuel
  induction fuel with
  | zero =>
    intro i h
    have hi : ¬ i < ncv := by omega
    rw [restartStepsRealAux_succ, if_neg hi]
    rfl
  | succ f ih =>
    intro i h
    by_cases hi : i < ncv
    · rw [restartStepsRealAux_succ ritz ncv (f + 1) i, restartStepsRealAux_succ ritz ncv f i,
        if_pos hi, if_pos hi]
      by_cases hc : isComplexC (ritz i) ∧ isConjC (ritz i) (ritz (i + 1))
      · rw [if_pos hc, if_pos hc, ih (i + 2) (by omega)]
      · rw [if_neg hc, if_neg hc, ih (i + 1) (by omega)]
    · rw [restartStepsRealAux_succ ritz ncv (f + 1) i, restartStepsRealAux_succ ritz ncv f i,
        if_neg hi, if_neg hi]

theorem restartStepsRealAux_eq (ritz : ℕ → Cplx α) (ncv : ℕ) :
    ∀ fuel i, ncv - i ≤ fuel →
      restartStepsRealAux ritz ncv fuel i = restartStepsReal ritz ncv i := by
  intro fuel
  induction fuel with
  | zero =>
    intro i h
    have h0 : ncv - i = 0 := by omega
    unfold restartStepsReal
    rw [h0]
  | succ f ih =>
    intro i h
    by_cases he : ncv - i = f + 1
    · unfold restartStepsReal
      rw [he]
    · have hle : ncv - i ≤ f := by omega
      rw [restartStepsRealAux_stepdown ritz ncv f i hle]
      exact ih i hle

/-- C1: the real-scalar restart performs one double-shift QR step with
shift-sum `2·Re(μ)` and shift-product `|μ|²` and advances by 2 whenever
`ritz_val[i]` is non-real and `ritz_val[i+1]` is its exact conjugate,
and otherwise a single-shift step with the real shift `Re(μ)` advancing
by 1; the complex-scalar restart performs exactly one complex-shift QR
step per index `i ∈ [k, ncv)` with shift `ritz_val[i]`. -/
theorem restart_shift_schedule (ritz : ℕ → Cplx α) (ncv k : ℕ) :
    (restartStepsReal ritz ncv k =
      if k < ncv then
        if isComplexC (ritz k) ∧ isConjC (ritz k) (ritz (k + 1)) then
          RestartStep.double (2 * (ritz k).re) (Cplx.normSq (ritz k)) ::
            restartStepsReal ritz ncv (k + 2)
        else
          RestartStep.single (ritz k).re :: restartStepsReal ritz ncv (k + 1)
      else [])
    ∧ restartStepsCplx ritz ncv k = (List.range' k (ncv - k)).map ritz := by
  constructor
  · by_cases hk : k < ncv
    · have hsucc : ncv - k = (ncv - k - 1) + 1 := by omega
      rw [if_pos hk]
      have hlhs : restartStepsReal ritz ncv k =
          restartStepsRealAux ritz ncv ((ncv - k - 1) + 1) k := by
        unfold restartStepsReal
        rw [← hsucc]
      rw [hlhs, restartStepsRealAux_succ, if_pos hk]
      by_cases hc : isComplexC (ritz k) ∧ isConjC (ritz k) (ritz (k + 1))
      · rw [if_pos hc, restartStepsRealAux_eq ritz ncv (ncv - k - 1) (k + 2) (by omega),
          if_pos hc]
      · rw [if_neg hc, restartStepsRealAux_eq ritz ncv (ncv - k - 1) (k + 1) (by omega),
          if_neg hc]
    · have h0 : ncv - k = 0 := by omega
      rw [if_neg hk]
      have hlhs : restartStepsReal ritz ncv k = restartStepsRealAux ritz ncv 0 k := by
        unfold restartStepsReal
        rw [h0]
      rw [hlhs]
      rfl
  · have main : ∀ fuel i, ncv - i ≤ fuel →
        restartStepsCplxAux ritz ncv fuel i = (List.range' i (ncv - i)).map ritz := by
      intro fuel
      induction fuel with
      | zero =>
        intro i h
        have h0 : ncv - i = 0 := by omega
        rw [h0]
        rfl
      | succ f ih =>
        intro i h
        by_cases hi : i < ncv
        · have hsucc : ncv - i = (ncv - i - 1) + 1 := by omega
          have hstep : restartStepsCplxAux ritz ncv (f + 1) i =
              ritz i :: restartStepsCplxAux ritz ncv f (i + 1) := by
            show (if i < ncv then ritz i :: restartStepsCplxAux ritz ncv f (i + 1) else []) =
              ritz i :: restartStepsCplxAux ritz ncv f (i + 1)
            rw [if_pos hi]
          rw [hstep, ih (i + 1) (by omega), hsucc, List.range'_succ i (ncv - i - 1) 1]
          have hn : ncv - (i + 1) = ncv - i - 1 := by omega
          rw [hn]
          rfl
        · have h0 : ncv - i = 0 := by omega
          have hstep : restartStepsCplxAux ritz ncv (f + 1) i = [] := by
            show (if i < ncv then ritz i :: restartStepsCplxAux ritz ncv f (i + 1) else []) = []
            rw [if_neg hi]
          rw [hstep, h0]
          rfl
    exact main (ncv - k) k le_rfl

/-- C9 (amended): `ritz_val[i+1]` is dereferenced whenever `ritz_val[i]`
is non-real, so all reads stay below `ncv` provided the last entry
`ritz_val[ncv-1]` is real; the companion counterexample shows a non-real
last entry makes the loop read the out-of-range index `ncv`. -/
theorem restart_reads_in_bounds (ritz : ℕ → Cplx α) (ncv k : ℕ)
    (hlast : (ritz (ncv - 1)).im = 0) :
    ∀ j ∈ restartReads ritz ncv k, j < ncv := by
  have hsucc : ∀ fuel i, restartReadsAux ritz ncv (fuel + 1) i =
      if i < ncv then
        if isComplexC (ritz i) then
          if isConjC (ritz i) (ritz (i + 1)) then
            i :: (i + 1) :: restartReadsAux ritz ncv fuel (i + 2)
          else
            i :: (i + 1) :: restartReadsAux ritz ncv fuel (i + 1)
        else i :: restartReadsAux ritz ncv fuel (i + 1)
      else [] := fun _ _ => rfl
  have main : ∀ fuel i, ∀ j ∈ restartReadsAux ritz ncv fuel i, j < ncv := by
    intro fuel
    induction fuel with
    | zero =>
      intro i j hj
      exact absurd hj (List.not_mem_nil j)
    | succ f ih =>
      intro i j hj
      rw [hsucc f i] at hj
      by_cases hi : i < ncv
      · rw [if_pos hi] at hj
        by_cases hcplx : isComplexC (ritz i)
        · have hi1 : i + 1 < ncv := by
            rcases Nat.lt_or_ge (i + 1) ncv with hlt | hge
            · exact hlt
            · exfalso
              have hieq : i = ncv - 1 := by omega
              rw [hieq] at hcplx
              exact hcplx hlast
          rw [if_pos hcplx] at hj
          by_cases hconj : isConjC (ritz i) (ritz (i + 1))
          · rw [if_pos hconj] at hj
            rcases List.mem_cons.mp hj with h1 | hj2
            · omega
            rcases List.mem_cons.mp hj2 with h2 | hj3
            · omega
            exact ih (i + 2) j hj3
          · rw [if_neg hconj] at hj
            rcases List.mem_cons.mp hj with h1 | hj2
            · omega
            rcases List.mem_cons.mp hj2 with h2 | hj3
            · omega
            exact ih (i + 1) j hj3
        · rw [if_neg hcplx] at hj
          rcases List.mem_cons.mp hj with h1 | hj2
          · omega
          exact ih (i + 1) j hj2
      · rw [if_neg hi] at hj
        exact absurd hj (List.not_mem_nil j)
  exact main (ncv - k) k

/-- Witness for `restart_reads_in_bounds` at a concrete input. -/
theorem restart_reads_in_bounds_witness :
    ((fun _ : ℕ => (⟨1, 0⟩ : Cplx ℚ)) (2 - 1)).im = 0 ∧
      ∀ j ∈ restartReads (fun _ : ℕ => (⟨1, 0⟩ : Cplx ℚ)) 2 0, j < 2 :=
  ⟨rfl, restart_reads_in_bounds (fun _ : ℕ => (⟨1, 0⟩ : Cplx ℚ)) 2 0 rfl⟩

/-- C9 counterexample: with `ncv = 1`, `k = 0` and a non-real
`ritz_val[0]`, the conjugate-pair test dereferences the out-of-range
index `1 = ncv`, so the bounds claim fails as stated. -/
theorem restart_reads_oob :
    1 ∈ restartReads (fun _ : ℕ => (⟨0, 1⟩ : Cplx ℚ)) 1 0 ∧ ¬ (1 < 1) := by
  decide

/-!
### `GenEigsBase` (GenEigsBase.h, lines 149–612)

`Scalar`-generic pieces: the convergence test `num_converged`
(lines 225–242), the restart-rank heuristic `nev_adjusted`
(lines 245–277), the constructor validation (lines 409–424), the
`compute` driver loop (lines 501–525) and the `eigenvalues()` accessor
(lines 550–569).  The Arnoldi factorization, `retrieve_ritzpair`'s
dependencies (`UpperHessenbergEigen`, the external `SortEigenvalue`)
and `restart` mutate a solver state that `compute` only observes
through `num_converged`; the loop embedding therefore carries an
abstract state `σ` with the per-iteration update (`nev_adjusted` +
`restart`) as a step function and `num_converged` as an observation. -/

/-- `isOk` test on `Except`; models "the call returned normally rather
than throwing". -/
def isOkE {ε β : Type} (e : Except ε β) : Bool :=
  match e with
  | Except.ok _ => true
  | Except.error _ => false

/-- `thresh[i] = tol * max(abs(ritz_val[i]), eps23)` from
`num_converged`; `eps23` stands for `pow(eps, 2/3)` computed there, and
`cabs` for `std::abs` on complex values. -/
def ritzThresh (cabs : Cplx α → α) (tol eps23 : α) (ritzVal : ℕ → Cplx α) (i : ℕ) : α :=
  tol * max (cabs (ritzVal i)) eps23

/-- `resid[i] = abs(ritz_est[i]) * f_norm` from `num_converged`. -/
def ritzResid (cabs : Cplx α → α) (fnorm : α) (ritzEst : ℕ → Cplx α) (i : ℕ) : α :=
  cabs (ritzEst i) * fnorm

/-- `m_ritz_conv[i] = (resid[i] < thresh[i])` from `num_converged`. -/
def ritzConvFlag (cabs : Cplx α → α) (tol eps23 fnorm : α)
    (ritzVal ritzEst : ℕ → Cplx α) (i : ℕ) : Bool :=
  decide (ritzResid cabs fnorm ritzEst i < ritzThresh cabs tol eps23 ritzVal i)

/-- `num_converged(tol)`: the number of converged flags among the first
`nev` Ritz pairs (`m_ritz_conv.count()`). -/
def numConverged (cabs : Cplx α → α) (tol eps23 fnorm : α)
    (ritzVal ritzEst : ℕ → Cplx α) (nev : ℕ) : ℕ :=
  ((List.range nev).filter (ritzConvFlag cabs tol eps23 fnorm ritzVal ritzEst)).length

/-- C2: index `i < nev` is marked converged exactly when
`|ritz_est[i]| · ‖f‖ < tol · max(eps^(2/3), |ritz_val[i]|)`, and the
returned count is the number of indices so marked. -/
theorem num_converged_formula (cabs : Cplx α → α) (tol eps23 fnorm : α)
    (ritzVal ritzEst : ℕ → Cplx α) (nev : ℕ) :
    (∀ i, ritzConvFlag cabs tol eps23 fnorm ritzVal ritzEst i = true ↔
      cabs (ritzEst i) * fnorm < tol * max eps23 (cabs (ritzVal i)))
    ∧ numConverged cabs tol eps23 fnorm ritzVal ritzEst nev =
      (List.range nev).countP (ritzConvFlag cabs tol eps23 fnorm ritzVal ritzEst) := by
  constructor
  · intro i
    unfold ritzConvFlag ritzResid ritzThresh
    rw [decide_eq_true_iff, max_comm]
  · unfold numConverged
    exact (List.countP_eq_length_filter _ _).symm

/-- `nev_adjusted(nconv)` (GenEigsBase.h lines 245–277).  `near0`
stands for `TypeTraits<RealScalar>::min() * 10` and `cabs` for
`std::abs`; the locked-direction loop over `i ∈ [nev, ncv)` is the
`countP` over `range' nev (ncv - nev)`. -/
def nevAdjusted (cabs : Cplx α → α) (near0 : α) (ritzVal ritzEst : ℕ → Cplx α)
    (nev ncv nconv : ℕ) : ℕ :=
  let nev1 := nev + (List.range' nev (ncv - nev)).countP fun i => decide (cabs (ritzEst i) < near0)
  let nev2 := nev1 + min nconv ((ncv - nev1) / 2)
  let nev3 :=
    if nev2 = 1 ∧ 6 ≤ ncv then ncv / 2
    else if nev2 = 1 ∧ 3 < ncv then 2
    else nev2
  let nev4 := if nev3 > ncv - 2 then ncv - 2 else nev3
  if isComplexC (ritzVal (nev4 - 1)) ∧ isConjC (ritzVal (nev4 - 1)) (ritzVal nev4) then
    nev4 + 1
  else nev4

/-- C3's recipe transcribed from the specification wording: start at
`nev`; add 1 for each index `i ∈ [nev, ncv)` whose Ritz-estimate
magnitude is below `near0`; add `min(nconv, (ncv − current)/2)`; map a
result of 1 to `ncv/2` (when `ncv ≥ 6`) or 2 (when `ncv > 3`); clamp to
at most `ncv − 2`; extend by one if the boundary splits an exact
conjugate pair. -/
def nevAdjustedSpec (cabs : Cplx α → α) (near0 : α) (ritzVal ritzEst : ℕ → Cplx α)
    (nev ncv nconv : ℕ) : ℕ :=
  let a := nev + (List.range ncv).countP fun i =>
    decide (nev ≤ i) && decide (cabs (ritzEst i) < near0)
  let b := a + min nconv ((ncv - a) / 2)
  let c := if b = 1 ∧ 6 ≤ ncv then ncv / 2 else if b = 1 ∧ 3 < ncv then 2 else b
  let d := min c (ncv - 2)
  if isComplexC (ritzVal (d - 1)) ∧ isConjC (ritzVal (d - 1)) (ritzVal d) then d + 1 else d

theorem countP_range'_eq (p : ℕ → Bool) (a b : ℕ) (h : a ≤ b) :
    (List.range' a (b - a)).countP p =
      (List.range b).countP fun i => decide (a ≤ i) && p i := by
  have happ : List.range' 0 a ++ List.range' a (b - a) = List.range b := by
    have h1 := List.range'_append_1 0 a (b - a)
    rw [Nat.zero_add] at h1
    rw [List.range_eq_range', h1]
    congr 1
    omega
  rw [← happ, List.countP_append]
  have hz : (List.range' 0 a).countP (fun i => decide (a ≤ i) && p i) = 0 := by
    rw [List.countP_eq_zero]
    intro x hx
    have hxa : x < a := by
      have := List.mem_range'_1.mp hx
      omega
    simp only [Bool.and_eq_true, decide_eq_true_iff, not_and]
    intro hax
    omega
  rw [hz, Nat.zero_add]
  apply List.countP_congr
  intro x hx
  have hax : a ≤ x := (List.mem_range'_1.mp hx).1
  simp [hax]

theorem clamp_eq_min (x y : ℕ) : (if x > y then y else x) = min x y := by
  by_cases h : x > y
  · rw [if_pos h]
    omega
  · rw [if_neg h]
    omega

/-- C3: the adjusted restart rank computed by `nev_adjusted` agrees
with the specification's recipe. -/
theorem nev_adjusted_matches_spec (cabs : Cplx α → α) (near0 : α)
    (ritzVal ritzEst : ℕ → Cplx α) (nev ncv nconv : ℕ) (h : nev ≤ ncv) :
    nevAdjusted cabs near0 ritzVal ritzEst nev ncv nconv =
      nevAdjustedSpec cabs near0 ritzVal ritzEst nev ncv nconv := by
  unfold nevAdjusted nevAdjustedSpec
  rw [countP_range'_eq (fun i => decide (cabs (ritzEst i) < near0)) nev ncv h]
  simp only [clamp_eq_min]

/-- Witness for `nev_adjusted_matches_spec` at a concrete input. -/
theorem nev_adjusted_matches_spec_witness :
    1 ≤ 3 ∧
      nevAdjusted (fun z => z.re) (0 : ℚ) (fun _ => ⟨1, 0⟩) (fun _ => ⟨1, 0⟩) 1 3 0 =
        nevAdjustedSpec (fun z => z.re) (0 : ℚ) (fun _ => ⟨1, 0⟩) (fun _ => ⟨1, 0⟩) 1 3 0 :=
  ⟨by decide,
    nev_adjusted_matches_spec (fun z => z.re) (0 : ℚ) (fun _ => ⟨1, 0⟩) (fun _ => ⟨1, 0⟩)
      1 3 0 (by decide)⟩

/-- The two `std::invalid_argument` throws of the `GenEigsBase`
constructor. -/
inductive CtorErr where
  | badNev
  | badNcv
deriving DecidableEq, Repr

/-- `GenEigsBase::GenEigsBase(op, Bop, nev, ncv)` validation
(lines 409–424) over the signed `Eigen::Index` type, modelled by `ℤ`.
The member initializer `m_ncv = (ncv > n ? n : ncv)` runs before the
checks but has no observable effect when an exception is thrown; the
`ok` payload records the stored `m_ncv`.  No matrix data is touched, so
a failure happens before any eigen computation. -/
def genEigsCtor (n nev ncv : ℤ) : Except CtorErr ℤ :=
  if nev < 1 ∨ nev > n - 2 then Except.error CtorErr.badNev
  else if ncv < nev + 2 ∨ ncv > n then Except.error CtorErr.badNcv
  else Except.ok (if ncv > n then n else ncv)

/-- C5: construction succeeds iff `1 ≤ nev ≤ n−2` and
`nev+2 ≤ ncv ≤ n`; in particular `nev = 0` always fails, and
`nev = n−2, ncv = n` succeeds exactly when the dimension admits it
(`n ≥ 3`). -/
theorem ctor_validation (n nev ncv : ℤ) :
    (isOkE (genEigsCtor n nev ncv) = true ↔
      1 ≤ nev ∧ nev ≤ n - 2 ∧ nev + 2 ≤ ncv ∧ ncv ≤ n)
    ∧ isOkE (genEigsCtor n 0 ncv) = false
    ∧ (isOkE (genEigsCtor n (n - 2) n) = true ↔ 3 ≤ n) := by
  refine ⟨?_, ?_, ?_⟩
  · unfold genEigsCtor
    by_cases h1 : nev < 1 ∨ nev > n - 2
    · rw [if_pos h1]
      exact iff_of_false (by simp [isOkE]) (by omega)
    · rw [if_neg h1]
      by_cases h2 : ncv < nev + 2 ∨ ncv > n
      · rw [if_pos h2]
        exact iff_of_false (by simp [isOkE]) (by omega)
      · rw [if_neg h2]
        exact iff_of_true rfl (by omega)
  · unfold genEigsCtor
    rw [if_pos (Or.inl (by norm_num : (0 : ℤ) < 1))]
    rfl
  · unfold genEigsCtor
    by_cases h3 : 3 ≤ n
    · rw [if_neg (by omega : ¬ (n - 2 < 1 ∨ n - 2 > n - 2)),
        if_neg (by omega : ¬ (n < n - 2 + 2 ∨ n > n))]
      exact iff_of_true rfl h3
    · rw [if_pos (Or.inl (by omega : n - 2 < (1 : ℤ)))]
      exact iff_of_false (by simp [isOkE]) h3

/-- `CompInfo` status values used by `GenEigsBase::compute`. -/
inductive CompInfo where
  | successful
  | notComputed
  | notConverging
deriving DecidableEq, Repr

/-- Observation of one escape from the `compute` restarting loop:
final solver state, last `nconv`, the C++ loop variable `i` at loop
exit, and the number of loop-body executions (convergence tests). -/
structure LoopOut (σ : Type) where
  state : σ
  nconv : ℕ
  brk : ℕ
  tests : ℕ

/-- The `for (i = 0; i < maxit; i++)` loop of `GenEigsBase::compute`
(lines 508–517): per iteration run `num_converged` (observation
`numConv`), break when `nconv ≥ nev`, else restart with the adjusted
rank (state update `restartStep`, standing for
`restart(nev_adjusted(nconv), selection)`).  Structural recursion on
the remaining iteration budget `rem`. -/
def computeLoopAux {σ : Type} (numConv : σ → ℕ) (restartStep : σ → σ) (nev : ℕ) :
    ℕ → ℕ → σ → ℕ → LoopOut σ
  | 0, i, s, nc => ⟨s, nc, i, 0⟩
  | rem + 1, i, s, _ =>
    let c := numConv s
    if nev ≤ c then ⟨s, c, i, 1⟩
    else
      let r := computeLoopAux numConv restartStep nev rem (i + 1) (restartStep s) c
      ⟨r.state, r.nconv, r.brk, r.tests + 1⟩

/-- The `compute` loop started with budget `maxit`, `i = 0` and the
initial `nconv = 0` (line 508). -/
def computeLoop {σ : Type} (numConv : σ → ℕ) (restartStep : σ → σ)
    (nev maxit : ℕ) (s : σ) : LoopOut σ :=
  computeLoopAux numConv restartStep nev maxit 0 s 0

/-- `return (std::min)(m_nev, nconv)` (line 524). -/
def computeResult {σ : Type} (numConv : σ → ℕ) (restartStep : σ → σ)
    (nev maxit : ℕ) (s : σ) : ℕ :=
  min nev (computeLoop numConv restartStep nev maxit s).nconv

/-- `m_info = (nconv >= m_nev) ? Successful : NotConverging` (line 522). -/
def computeStatus {σ : Type} (numConv : σ → ℕ) (restartStep : σ → σ)
    (nev maxit : ℕ) (s : σ) : CompInfo :=
  if nev ≤ (computeLoop numConv restartStep nev maxit s).nconv then CompInfo.successful
  else CompInfo.notConverging

/-- `m_niter += (i + 1)` (line 521) after `init` reset `m_niter = 0`:
the value reported by `num_iterations()` after one `compute` call. -/
def computeNiter {σ : Type} (numConv : σ → ℕ) (restartStep : σ → σ)
    (nev maxit : ℕ) (s : σ) : ℕ :=
  (computeLoop numConv restartStep nev maxit s).brk + 1

/-- `GenEigsBase::eigenvalues()` (lines 550–569): the Ritz values whose
convergence flag is set, kept in order, among the first `nev`. -/
def eigenvaluesAcc (ritzVal : ℕ → Cplx α) (conv : ℕ → Bool) (nev : ℕ) : List (Cplx α) :=
  ((List.range nev).filter conv).map ritzVal

theorem computeLoopAux_succ {σ : Type} (numConv : σ → ℕ) (restartStep : σ → σ)
    (nev rem i : ℕ) (s : σ) (nc : ℕ) :
    computeLoopAux numConv restartStep nev (rem + 1) i s nc =
      if nev ≤ numConv s then ⟨s, numConv s, i, 1⟩
      else
        ⟨(computeLoopAux numConv restartStep nev rem (i + 1) (restartStep s) (numConv s)).state,
          (computeLoopAux numConv restartStep nev rem (i + 1) (restartStep s) (numConv s)).nconv,
          (computeLoopAux numConv restartStep nev rem (i + 1) (restartStep s) (numConv s)).brk,
          (computeLoopAux numConv restartStep nev rem (i + 1) (restartStep s) (numConv s)).tests + 1⟩ :=
  rfl

theorem computeLoopAux_spec {σ : Type} (numConv : σ → ℕ) (restartStep : σ → σ)
    (nev : ℕ) :
    ∀ rem i (s : σ) nc, nc < nev →
      (computeLoopAux numConv restartStep nev rem i s nc).tests ≤ rem ∧
      (if nev ≤ (computeLoopAux numConv restartStep nev rem i s nc).nconv then
        (computeLoopAux numConv restartStep nev rem i s nc).brk + 1 =
          i + (computeLoopAux numConv restartStep nev rem i s nc).tests
      else
        (computeLoopAux numConv restartStep nev rem i s nc).tests = rem ∧
        (computeLoopAux numConv restartStep nev rem i s nc).brk = i + rem) := by
  intro rem
  induction rem with
  | zero =>
    intro i s nc hnc
    dsimp only [computeLoopAux]
    refine ⟨Nat.le_refl 0, ?_⟩
    rw [if_neg (Nat.not_le.mpr hnc)]
    exact ⟨rfl, by omega⟩
  | succ rem ih =>
    intro i s nc hnc
    rw [computeLoopAux_succ]
    by_cases hc : nev ≤ numConv s
    · rw [if_pos hc]
      dsimp only
      rw [if_pos hc]
      exact ⟨by omega, by omega⟩
    · rw [if_neg hc]
      dsimp only
      have hlt : numConv s < nev := Nat.not_le.mp hc
      obtain ⟨ht, hrest⟩ := ih (i + 1) (restartStep s) (numConv s) hlt
      refine ⟨by omega, ?_⟩
      by_cases hdone :
        nev ≤ (computeLoopAux numConv restartStep nev rem (i + 1) (restartStep s) (numConv s)).nconv
      · rw [if_pos hdone] at hrest ⊢
        omega
      · rw [if_neg hdone] at hrest ⊢
        omega

/-- C8 (amended): a single `compute` call executes at most `maxit`
outer iterations (loop-body runs), and `num_iterations()` reports the
number of outer iterations performed when the loop breaks on
convergence, but `maxit + 1` when the iteration budget is exhausted
without convergence. -/
theorem compute_iteration_counter {σ : Type} (numConv : σ → ℕ) (restartStep : σ → σ)
    (nev maxit : ℕ) (s : σ) (hnev : 1 ≤ nev) :
    (computeLoop numConv restartStep nev maxit s).tests ≤ maxit
    ∧ (nev ≤ (computeLoop numConv restartStep nev maxit s).nconv →
        computeNiter numConv restartStep nev maxit s =
          (computeLoop numConv restartStep nev maxit s).tests)
    ∧ (¬ nev ≤ (computeLoop numConv restartStep nev maxit s).nconv →
        computeNiter numConv restartStep nev maxit s = maxit + 1) := by
  have hloop : computeLoop numConv restartStep nev maxit s =
      computeLoopAux numConv restartStep nev maxit 0 s 0 := rfl
  obtain ⟨ht, hrest⟩ :=
    computeLoopAux_spec numConv restartStep nev maxit 0 s 0 (by omega)
  refine ⟨by rw [hloop]; exact ht, ?_, ?_⟩
  · intro hconv
    rw [hloop] at hconv
    rw [if_pos hconv] at hrest
    unfold computeNiter
    rw [hloop]
    omega
  · intro hnconv
    rw [hloop] at hnconv
    rw [if_neg hnconv] at hrest
    unfold computeNiter
    rw [hloop]
    omega

/-- Witness for `compute_iteration_counter` at a concrete input. -/
theorem compute_iteration_counter_witness :
    1 ≤ 1 ∧
      ((computeLoop (fun _ : Unit => 0) (fun s => s) 1 1 ()).tests ≤ 1
      ∧ (1 ≤ (computeLoop (fun _ : Unit => 0) (fun s => s) 1 1 ()).nconv →
          computeNiter (fun _ : Unit => 0) (fun s => s) 1 1 () =
            (computeLoop (fun _ : Unit => 0) (fun s => s) 1 1 ()).tests)
      ∧ (¬ 1 ≤ (computeLoop (fun _ : Unit => 0) (fun s => s) 1 1 ()).nconv →
          computeNiter (fun _ : Unit => 0) (fun s => s) 1 1 () = 1 + 1)) :=
  ⟨by decide, compute_iteration_counter (fun _ : Unit => 0) (fun s => s) 1 1 () (by decide)⟩

/-- C8 counterexample: with `maxit = 1` and a never-converging state,
exactly one outer iteration runs but `num_iterations()` reports 2,
exceeding the budget `m = 1` — the counter does not equal the number of
outer iterations performed. -/
theorem compute_niter_exceeds_budget :
    computeNiter (fun _ : Unit => 0) (fun s => s) 1 1 () = 2 ∧
    (computeLoop (fun _ : Unit => 0) (fun s => s) 1 1 ()).tests = 1 ∧ ¬ (2 ≤ 1) := by
  decide

/-- C4: `compute` returns `min(nev, nconv)`, reports `Successful`
exactly when `nconv ≥ nev` (and `NotConverging` otherwise, never an
exception — all paths of the loop embedding are total), with at least
one convergence test performed when `maxit ≥ 1`; the `eigenvalues()`
accessor stays available and returns exactly the flagged (converged)
subset of the first `nev` Ritz values. -/
theorem compute_return_and_accessor {σ : Type} (numConv : σ → ℕ) (restartStep : σ → σ)
    (nev maxit : ℕ) (s : σ) (ritzVal : ℕ → Cplx α) (conv : ℕ → Bool)
    (hmax : 1 ≤ maxit) :
    computeResult numConv restartStep nev maxit s =
      min nev (computeLoop numConv restartStep nev maxit s).nconv
    ∧ (computeStatus numConv restartStep nev maxit s = CompInfo.successful ↔
        nev ≤ (computeLoop numConv restartStep nev maxit s).nconv)
    ∧ 1 ≤ (computeLoop numConv restartStep nev maxit s).tests
    ∧ (eigenvaluesAcc ritzVal conv nev).length = (List.range nev).countP conv := by
  refine ⟨rfl, ?_, ?_, ?_⟩
  · unfold computeStatus
    by_cases hc : nev ≤ (computeLoop numConv restartStep nev maxit s).nconv
    · rw [if_pos hc]
      exact iff_of_true rfl hc
    · rw [if_neg hc]
      exact iff_of_false (fun hcontra => CompInfo.noConfusion hcontra) hc
  · obtain ⟨m, hm⟩ : ∃ m, maxit = m + 1 := ⟨maxit - 1, by omega⟩
    unfold computeLoop
    rw [hm, computeLoopAux_succ]
    by_cases hc : nev ≤ numConv s
    · rw [if_pos hc]
    · rw [if_neg hc]
      exact Nat.le_add_left 1 _
  · unfold eigenvaluesAcc
    rw [List.length_map]
    exact (List.countP_eq_length_filter _ _).symm

/-- Witness for `compute_return_and_accessor` at a concrete input. -/
theorem compute_return_and_accessor_witness :
    1 ≤ 1 ∧
      (computeResult (fun _ : Unit => 3) (fun s => s) 2 1 () =
        min 2 (computeLoop (fun _ : Unit => 3) (fun s => s) 2 1 ()).nconv
      ∧ (computeStatus (fun _ : Unit => 3) (fun s => s) 2 1 () = CompInfo.successful ↔
          2 ≤ (computeLoop (fun _ : Unit => 3) (fun s => s) 2 1 ()).nconv)
      ∧ 1 ≤ (computeLoop (fun _ : Unit => 3) (fun s => s) 2 1 ()).tests
      ∧ (eigenvaluesAcc (fun _ => (⟨1, 0⟩ : Cplx ℚ)) (fun _ => true) 2).length =
          (List.range 2).countP (fun _ => true)) :=
  ⟨by decide,
    compute_return_and_accessor (fun _ : Unit => 3) (fun s => s) 2 1 ()
      (fun _ => (⟨1, 0⟩ : Cplx ℚ)) (fun _ => true) (by decide)⟩

/-!
### `UpperHessenbergEigen`, real scalar (UpperHessenbergEigen.h, lines 32–321)

Matrices are modelled by their dimensions plus an entry function (the
underlying `Eigen` dense storage).  The Schur reduction
(`UpperHessenbergSchur`, a distinct header not part of the embedded
sources) is a parameter `schur` producing the pair `(T, U)`;
`std::sqrt` is the parameter `msqrt`.  The eigenvector back-substitution
`doComputeEigenvectors` (lines 53–208) mutates only `(m_matT, m_eivec)`
and its numeric content is not touched by any claim; it is abstracted
as the parameter `backsub` applied at the same program point.
-/

/-- A dense real matrix: dimensions plus entry storage. -/
structure MatF (α : Type) where
  rows : ℕ
  cols : ℕ
  entry : ℕ → ℕ → α

/-- `mat.cwiseAbs().maxCoeff()` (line 231): the maximum absolute entry.
Absolute values are nonnegative, so starting the running maximum at 0
agrees with `maxCoeff` on any nonempty matrix. -/
def matMaxAbs (m : MatF α) : α :=
  ((List.range m.rows).flatMap fun i =>
    (List.range m.cols).map fun j => |m.entry i j|).foldl max 0

/-- `mat / scale` (line 234): entrywise division by the scale factor. -/
def matScaleDiv (m : MatF α) (scale : α) : MatF α :=
  ⟨m.rows, m.cols, fun i j => m.entry i j / scale⟩

/-- The eigenvalue extraction loop over the quasi-triangular Schur
factor (lines 240–268): a `1×1` diagonal block yields a real
eigenvalue, a `2×2` block yields an exact conjugate pair `x ± i·z` with
`z` computed through the max-rescaled discriminant and `msqrt`
standing for `std::sqrt`. -/
def eigvalsFromSchurAux (msqrt : α → α) (T : ℕ → ℕ → α) (n : ℕ) : ℕ → ℕ → List (Cplx α)
  | 0, _ => []
  | fuel + 1, i =>
    if i < n then
      if i = n - 1 ∨ T (i + 1) i = 0 then
        ⟨T i i, 0⟩ :: eigvalsFromSchurAux msqrt T n fuel (i + 1)
      else
        let p := (1 / 2 : α) * (T i i - T (i + 1) (i + 1))
        let t0 := T (i + 1) i
        let t1 := T i (i + 1)
        let maxval := max |p| (max |t0| |t1|)
        let z := maxval * msqrt |p / maxval * (p / maxval) + t0 / maxval * (t1 / maxval)|
        ⟨T (i + 1) (i + 1) + p, z⟩ :: ⟨T (i + 1) (i + 1) + p, -z⟩ ::
          eigvalsFromSchurAux msqrt T n fuel (i + 2)
    else []

/-- Eigenvalues read off the real Schur factor `T` of size `n`. -/
def eigvalsFromSchur (msqrt : α → α) (T : ℕ → ℕ → α) (n : ℕ) : List (Cplx α) :=
  eigvalsFromSchurAux msqrt T n n 0

/-- Scalar-times-complex, for `m_eivalues *= scale` (line 274). -/
def Cplx.smul (c : α) (z : Cplx α) : Cplx α := ⟨c * z.re, c * z.im⟩

/-- The error conditions of `UpperHessenbergEigen`:
`std::invalid_argument`, `std::logic_error`, `std::runtime_error`. -/
inductive UHEErr where
  | invalidArg
  | logicErr
  | runtimeErr
deriving DecidableEq, Repr

/-- State of the real-scalar `UpperHessenbergEigen` object. -/
structure UHEStateR (α : Type) where
  n : ℕ
  matT : MatF α
  eivec : MatF α
  eivalues : List (Cplx α)
  computed : Bool

/-- The default-constructed real solver: `m_n(0), m_computed(false)`
(lines 211–213). -/
def uheInitR : UHEStateR α :=
  ⟨0, ⟨0, 0, fun _ _ => 0⟩, ⟨0, 0, fun _ _ => 0⟩, [], false⟩

/-- Real-scalar `UpperHessenbergEigen::compute(mat)` (lines 221–277):
reject non-square input, scale by the maximum absolute entry, run the
external Schur reduction on `mat / scale`, read the eigenvalues off the
quasi-triangular factor, run the eigenvector back-substitution
(`backsub`, see section comment), and unscale the eigenvalues.  The
`computed` flag is set only on the success path, so a throwing call
leaves the previous state (and its unset flag) in place. -/
def uheComputeR (schur : MatF α → MatF α × MatF α)
    (backsub : MatF α → MatF α → MatF α × MatF α) (msqrt : α → α)
    (mat : MatF α) : Except UHEErr (UHEStateR α) :=
  if mat.rows ≠ mat.cols then Except.error UHEErr.invalidArg
  else
    let scale := matMaxAbs mat
    let TU := schur (matScaleDiv mat scale)
    let evs := eigvalsFromSchur msqrt TU.1.entry mat.rows
    let TV := backsub TU.1 TU.2
    Except.ok ⟨mat.rows, TV.1, TV.2, evs.map (Cplx.smul scale), true⟩

/-- Real-scalar `eigenvalues()` accessor (lines 279–285). -/
def uheEigenvaluesR (s : UHEStateR α) : Except UHEErr (List (Cplx α)) :=
  if s.computed then Except.ok s.eivalues else Except.error UHEErr.logicErr

/-- Column assembly of the real-scalar `eigenvectors()` accessor
(lines 294–317): a real eigenvalue (or the last column) casts its
stored column; an eigenvalue of a conjugate pair combines columns `j`
and `j+1` into `col(j) ± i·col(j+1)`, consuming both.  `cnormalize`
stands for `Eigen`'s `normalize()` (division by the Euclidean norm). -/
def realVecColsAux (cnormalize : List (Cplx α) → List (Cplx α))
    (eivec : ℕ → ℕ → α) (eivals : ℕ → Cplx α) (n : ℕ) : ℕ → ℕ → List (List (Cplx α))
  | 0, _ => []
  | fuel + 1, j =>
    if j < n then
      if (eivals j).im = 0 ∨ j + 1 = n then
        cnormalize ((List.range n).map fun i => (⟨eivec i j, 0⟩ : Cplx α)) ::
          realVecColsAux cnormalize eivec eivals n fuel (j + 1)
      else
        cnormalize ((List.range n).map fun i => (⟨eivec i j, eivec i (j + 1)⟩ : Cplx α)) ::
          cnormalize ((List.range n).map fun i => (⟨eivec i j, -eivec i (j + 1)⟩ : Cplx α)) ::
            realVecColsAux cnormalize eivec eivals n fuel (j + 2)
    else []

/-- Real-scalar `eigenvectors()` accessor (lines 287–320). -/
def uheEigenvectorsR (cnormalize : List (Cplx α) → List (Cplx α))
    (s : UHEStateR α) : Except UHEErr (List (List (Cplx α))) :=
  if s.computed then
    Except.ok (realVecColsAux cnormalize s.eivec.entry
      (fun i => s.eivalues.getD i ⟨0, 0⟩) s.n s.n 0)
  else Except.error UHEErr.logicErr

theorem init_le_foldl_max (l : List α) : ∀ init : α, init ≤ l.foldl max init := by
  induction l with
  | nil => intro init; exact le_refl init
  | cons a t ih =>
    intro init
    calc init ≤ max init a := le_max_left init a
      _ ≤ t.foldl max (max init a) := ih (max init a)

theorem le_foldl_max (l : List α) : ∀ (init x : α), x ∈ l → x ≤ l.foldl max init := by
  induction l with
  | nil =>
    intro init x hx
    exact absurd hx (List.not_mem_nil x)
  | cons a t ih =>
    intro init x hx
    rcases List.mem_cons.mp hx with rfl | hxt
    · calc x ≤ max init x := le_max_right init x
        _ ≤ t.foldl max (max init x) := init_le_foldl_max t (max init x)
    · exact ih (max init a) x hxt

/-- C10 (amended): the scaling divisor is positive whenever the square
input matrix has at least one nonzero entry; the companion
counterexample shows the all-zero matrix is accepted yet yields
`scale = 0`, so `mat / scale` does divide by zero there. -/
theorem scale_pos_of_nonzero_entry (m : MatF α) (i j : ℕ)
    (hi : i < m.rows) (hj : j < m.cols) (hne : m.entry i j ≠ 0) :
    0 < matMaxAbs m := by
  have hmem : |m.entry i j| ∈ (List.range m.rows).flatMap fun r =>
      (List.range m.cols).map fun c => |m.entry r c| := by
    refine List.mem_flatMap.mpr ⟨i, List.mem_range.mpr hi, ?_⟩
    exact List.mem_map.mpr ⟨j, List.mem_range.mpr hj, rfl⟩
  calc 0 < |m.entry i j| := abs_pos.mpr hne
    _ ≤ matMaxAbs m := le_foldl_max _ 0 _ hmem

/-- Witness for `scale_pos_of_nonzero_entry` at a concrete input. -/
theorem scale_pos_of_nonzero_entry_witness :
    0 < 1 ∧ 0 < 1 ∧ (1 : ℚ) ≠ 0 ∧
      0 < matMaxAbs (MatF.mk 1 1 fun _ _ => (1 : ℚ)) :=
  ⟨by decide, by decide, by decide,
    scale_pos_of_nonzero_entry (MatF.mk 1 1 fun _ _ => (1 : ℚ)) 0 0
      (by decide) (by decide) (by decide)⟩

/-- C10 counterexample: the all-zero `2×2` matrix is square, so
`compute` accepts it, yet its maximum absolute entry — the divisor of
`mat / scale` — is exactly zero. -/
theorem scale_zero_for_zero_matrix :
    matMaxAbs (MatF.mk 2 2 fun _ _ => (0 : ℚ)) = 0 ∧
      isOkE (uheComputeR (fun m => (m, m)) (fun t u => (t, u)) (fun x => x)
        (MatF.mk 2 2 fun _ _ => (0 : ℚ))) = true := by
  decide

/-!
### `UpperHessenbergEigen`, complex scalar (UpperHessenbergEigen.h, lines 328–454)

Complex arithmetic on `Cplx` is spelled out (the quotient through the
squared modulus is the field division of `std::complex`).
`Eigen::ComplexSchur` is the parameter `cschur` returning
`(info == Success, T, U)`; `matrixT().norm()` (a Frobenius norm, hence
a square root) is the parameter `tnorm`, machine epsilon is `eps`,
`TypeTraits::min()` is `minpos`, `std::abs` on complex values is
`cabs`, and column normalization is `cnormC`.
-/

def Cplx.add (x y : Cplx α) : Cplx α := ⟨x.re + y.re, x.im + y.im⟩

def Cplx.sub (x y : Cplx α) : Cplx α := ⟨x.re - y.re, x.im - y.im⟩

def Cplx.mul (x y : Cplx α) : Cplx α :=
  ⟨x.re * y.re - x.im * y.im, x.re * y.im + x.im * y.re⟩

def Cplx.neg (x : Cplx α) : Cplx α := ⟨-x.re, -x.im⟩

def Cplx.div (x y : Cplx α) : Cplx α :=
  ⟨(x.re * y.re + x.im * y.im) / Cplx.normSq y, (x.im * y.re - x.re * y.im) / Cplx.normSq y⟩

/-- A dense complex matrix. -/
structure MatC (α : Type) where
  rows : ℕ
  cols : ℕ
  entry : ℕ → ℕ → Cplx α

/-- Inner loop of `doComputeEigenvectors` (lines 360–373) for column
`k`, building `X(i,k)` for `i = k-1, …, 0`; the accumulator holds
`[X(i+1,k), …, X(k,k)]`.  `X(i,k) = (-T(i,k) - Σ T(i,j)·X(j,k)) / z`
with `z = T(i,i) - T(k,k)`, replaced by `eps·matrixnorm` (parameter
`epsnorm`) when exactly zero. -/
def buildXcolAux (T : ℕ → ℕ → Cplx α) (epsnorm : α) (k : ℕ) :
    ℕ → List (Cplx α) → List (Cplx α)
  | 0, acc => acc
  | cnt + 1, acc =>
    let i := cnt
    let sum := ((List.range' (i + 1) (k - 1 - i)).map fun j =>
      Cplx.mul (T i j) (acc.getD (j - i - 1) ⟨0, 0⟩)).foldl Cplx.add ⟨0, 0⟩
    let v := Cplx.sub (Cplx.neg (T i k)) sum
    let z := Cplx.sub (T i i) (T k k)
    let z' := if z = (⟨0, 0⟩ : Cplx α) then (⟨epsnorm, z.im⟩ : Cplx α) else z
    Cplx.div v z' :: buildXcolAux T epsnorm k cnt acc

/-- Column `k` of the unit-triangular `X` with `T·X = X·D`
(lines 356–374): entries `[X(0,k), …, X(k,k)]`, seeded with
`X(k,k) = 1`. -/
def buildXcol (T : ℕ → ℕ → Cplx α) (epsnorm : α) (k : ℕ) : List (Cplx α) :=
  buildXcolAux T epsnorm k k [⟨1, 0⟩]

/-- Entry `(i, k)` of the matrix `X` (zero below the diagonal, from the
`Zero` initialization at line 355). -/
def matXentry (T : ℕ → ℕ → Cplx α) (epsnorm : α) (i k : ℕ) : Cplx α :=
  (buildXcol T epsnorm k).getD i ⟨0, 0⟩

/-- Complex matrix product, for `m_eivec = m_schur.matrixU() * m_matX`
(line 377). -/
def matMulC (A B : MatC α) : MatC α :=
  ⟨A.rows, B.cols, fun i j =>
    ((List.range A.cols).map fun k => Cplx.mul (A.entry i k) (B.entry k j)).foldl
      Cplx.add ⟨0, 0⟩⟩

/-- First index attaining the minimum key — the semantics of `Eigen`'s
`minCoeff(&k)`, which keeps the first minimum on ties (line 391). -/
def argminIdx {γ : Type} (key : γ → α) : List γ → ℕ
  | [] => 0
  | [_] => 0
  | x :: y :: rest =>
    if key ((y :: rest).getD (argminIdx key (y :: rest)) x) < key x then
      argminIdx key (y :: rest) + 1
    else 0

/-- `std::swap(l[0], l[k])`: the parallel swap applied by
`sortEigenvalues` to the value at the front of the still-unsorted tail
and the minimal one (lines 393–398). -/
def swapFront {γ : Type} : List γ → ℕ → List γ
  | [], _ => []
  | x :: xs, 0 => x :: xs
  | x :: xs, k + 1 => xs.getD k x :: xs.set k x

/-- `sortEigenvalues` (lines 385–400): selection sort by key; at step
`i` the first minimum of the tail is swapped to position `i`.  The
eigenvalue/eigenvector pair moves as one element, modelling the two
parallel swaps. -/
def uheSortAux {γ : Type} (key : γ → α) : ℕ → List γ → List γ
  | 0, _ => []
  | _ + 1, [] => []
  | fuel + 1, x :: xs =>
    match swapFront (x :: xs) (argminIdx key (x :: xs)) with
    | [] => []
    | y :: ys => y :: uheSortAux key fuel ys

/-- `sortEigenvalues` on a whole list (the loop runs `n` steps). -/
def uheSortPairs {γ : Type} (key : γ → α) (l : List γ) : List γ :=
  uheSortAux key l.length l

/-- State of the complex-scalar `UpperHessenbergEigen` object; the
eigenvector matrix is stored by columns. -/
structure UHEStateC (α : Type) where
  eivalues : List (Cplx α)
  eivecCols : List (List (Cplx α))
  computed : Bool

/-- The default-constructed complex solver (lines 403–405). -/
def uheInitC : UHEStateC α :=
  ⟨[], [], false⟩

/-- Diagonal of `T` zipped with the normalized columns of `U·X`: the
eigenvalue/eigenvector pairs of the complex solver as they stand just
before `sortEigenvalues` (lines 427–428 and 347–383). -/
def uhePreSortPairs (tnorm : MatC α → α) (eps minpos : α)
    (cnormC : List (Cplx α) → List (Cplx α)) (T U : MatC α) (n : ℕ) :
    List (Cplx α × List (Cplx α)) :=
  let mnorm := max (tnorm T) minpos
  let X : MatC α := ⟨n, n, fun i k => matXentry T.entry (eps * mnorm) i k⟩
  let V := matMulC U X
  ((List.range n).map fun i => T.entry i i).zip
    ((List.range n).map fun k => cnormC ((List.range n).map fun i => V.entry i k))

/-- Complex-scalar `UpperHessenbergEigen::compute(mat)`
(lines 413–437): reject non-square input; run the external complex
Schur reduction; on failure propagate `std::runtime_error`; otherwise
take the eigenvalues from `diag(T)`, compute eigenvectors by the
triangular solve, and stable-order the pairs by `sortEigenvalues`. -/
def uheComputeC (cschur : MatC α → Bool × MatC α × MatC α) (tnorm : MatC α → α)
    (eps minpos : α) (cabs : Cplx α → α)
    (cnormC : List (Cplx α) → List (Cplx α)) (mat : MatC α) :
    Except UHEErr (UHEStateC α) :=
  if mat.rows ≠ mat.cols then Except.error UHEErr.invalidArg
  else
    let r := cschur mat
    if r.1 then
      let sorted := uheSortPairs (fun p => cabs p.1)
        (uhePreSortPairs tnorm eps minpos cnormC r.2.1 r.2.2 mat.rows)
      Except.ok ⟨sorted.map Prod.fst, sorted.map Prod.snd, true⟩
    else Except.error UHEErr.runtimeErr

/-- Complex-scalar `eigenvalues()` accessor (lines 439–445). -/
def uheEigenvaluesC (s : UHEStateC α) : Except UHEErr (List (Cplx α)) :=
  if s.computed then Except.ok s.eivalues else Except.error UHEErr.logicErr

/-- Complex-scalar `eigenvectors()` accessor (lines 447–453). -/
def uheEigenvectorsC (s : UHEStateC α) : Except UHEErr (List (List (Cplx α))) :=
  if s.computed then Except.ok s.eivecCols else Except.error UHEErr.logicErr

/-- C6: before a successful `compute`, both accessors of both
specializations raise the logic error; a non-square input makes
`compute` raise the invalid-argument error while producing no computed
state, so the old (uncomputed) state keeps raising the logic error. -/
theorem uhe_error_guards (sR : UHEStateR α)
    (cnormalize : List (Cplx α) → List (Cplx α))
    (schur : MatF α → MatF α × MatF α)
    (backsub : MatF α → MatF α → MatF α × MatF α) (msqrt : α → α)
    (matR : MatF α) (sC : UHEStateC α)
    (cschur : MatC α → Bool × MatC α × MatC α) (tnorm : MatC α → α)
    (eps minpos : α) (cabs : Cplx α → α)
    (cnormC : List (Cplx α) → List (Cplx α)) (matC : MatC α)
    (hR : sR.computed = false) (hmR : matR.rows ≠ matR.cols)
    (hC : sC.computed = false) (hmC : matC.rows ≠ matC.cols) :
    uheEigenvaluesR sR = Except.error UHEErr.logicErr
    ∧ uheEigenvectorsR cnormalize sR = Except.error UHEErr.logicErr
    ∧ uheComputeR schur backsub msqrt matR = Except.error UHEErr.invalidArg
    ∧ uheEigenvaluesC sC = Except.error UHEErr.logicErr
    ∧ uheEigenvectorsC sC = Except.error UHEErr.logicErr
    ∧ uheComputeC cschur tnorm eps minpos cabs cnormC matC =
        Except.error UHEErr.invalidArg := by
  have hRfalse : sR.computed ≠ true := by rw [hR]; exact Bool.false_ne_true
  have hCfalse : sC.computed ≠ true := by rw [hC]; exact Bool.false_ne_true
  refine ⟨?_, ?_, ?_, ?_, ?_, ?_⟩
  · unfold uheEigenvaluesR
    rw [if_neg (by simpa using hRfalse)]
  · unfold uheEigenvectorsR
    rw [if_neg (by simpa using hRfalse)]
  · unfold uheComputeR
    rw [if_pos hmR]
  · unfold uheEigenvaluesC
    rw [if_neg (by simpa using hCfalse)]
  · unfold uheEigenvectorsC
    rw [if_neg (by simpa using hCfalse)]
  · unfold uheComputeC
    rw [if_pos hmC]

/-- Witness for `uhe_error_guards` at concrete inputs: the
default-constructed solvers and a `1×2` (non-square) matrix. -/
theorem uhe_error_guards_witness :
    uheEigenvaluesR (uheInitR : UHEStateR ℚ) = Except.error UHEErr.logicErr
    ∧ uheEigenvectorsR (fun c => c) (uheInitR : UHEStateR ℚ) = Except.error UHEErr.logicErr
    ∧ uheComputeR (fun m => (m, m)) (fun t u => (t, u)) (fun x => x)
        (MatF.mk 1 2 fun _ _ => (0 : ℚ)) = Except.error UHEErr.invalidArg
    ∧ uheEigenvaluesC (uheInitC : UHEStateC ℚ) = Except.error UHEErr.logicErr
    ∧ uheEigenvectorsC (uheInitC : UHEStateC ℚ) = Except.error UHEErr.logicErr
    ∧ uheComputeC (fun m => (true, m, m)) (fun _ => 0) 0 0 Cplx.normSq (fun c => c)
        (MatC.mk 1 2 fun _ _ => (⟨0, 0⟩ : Cplx ℚ)) = Except.error UHEErr.invalidArg :=
  uhe_error_guards (uheInitR : UHEStateR ℚ) (fun c => c) (fun m => (m, m)) (fun t u => (t, u))
    (fun x => x) (MatF.mk 1 2 fun _ _ => (0 : ℚ)) (uheInitC : UHEStateC ℚ)
    (fun m => (true, m, m)) (fun _ => 0) 0 0 Cplx.normSq (fun c => c)
    (MatC.mk 1 2 fun _ _ => (⟨0, 0⟩ : Cplx ℚ)) rfl (by decide) rfl (by decide)

theorem getD_default_irrel {γ : Type} (l : List γ) (n : ℕ) (d d' : γ)
    (h : n < l.length) : l.getD n d = l.getD n d' := by
  simp [List.getD_eq_getElem, h]

theorem argminIdx_cons₂ {γ : Type} (key : γ → α) (x y : γ) (rest : List γ) :
    argminIdx key (x :: y :: rest) =
      if key ((y :: rest).getD (argminIdx key (y :: rest)) x) < key x then
        argminIdx key (y :: rest) + 1
      else 0 := rfl

theorem argminIdx_lt_length {γ : Type} (key : γ → α) :
    ∀ l : List γ, 0 < l.length → argminIdx key l < l.length := by
  intro l
  induction l with
  | nil =>
    intro h
    exact absurd h (by simp)
  | cons x xs ih =>
    cases xs with
    | nil =>
      intro _
      have h0 : argminIdx key [x] = 0 := rfl
      rw [h0]
      simp
    | cons y rest =>
      intro _
      rw [argminIdx_cons₂]
      have h2 := ih (by simp)
      by_cases hlt : key ((y :: rest).getD (argminIdx key (y :: rest)) x) < key x
      · rw [if_pos hlt]
        simp only [List.length_cons] at h2 ⊢
        omega
      · rw [if_neg hlt]
        simp

theorem argminIdx_min {γ : Type} (key : γ → α) :
    ∀ (x : γ) (xs : List γ), ∀ z ∈ x :: xs,
      key ((x :: xs).getD (argminIdx key (x :: xs)) x) ≤ key z := by
  intro x xs
  induction xs generalizing x with
  | nil =>
    intro z hz
    have h0 : argminIdx key [x] = 0 := rfl
    rcases List.mem_cons.mp hz with rfl | hz'
    · rw [h0]
      exact le_refl _
    · exact absurd hz' (List.not_mem_nil z)
  | cons y rest ih =>
    intro z hz
    have hj := argminIdx_lt_length key (y :: rest) (by simp)
    rw [argminIdx_cons₂]
    by_cases hlt : key ((y :: rest).getD (argminIdx key (y :: rest)) x) < key x
    · rw [if_pos hlt, List.getD_cons_succ]
      rcases List.mem_cons.mp hz with rfl | hz'
      · exact le_of_lt hlt
      · rw [getD_default_irrel (y :: rest) _ x y hj]
        exact ih y z hz'
    · rw [if_neg hlt, List.getD_cons_zero]
      rcases List.mem_cons.mp hz with rfl | hz'
      · exact le_refl _
      · calc key x ≤ key ((y :: rest).getD (argminIdx key (y :: rest)) x) := not_lt.mp hlt
          _ = key ((y :: rest).getD (argminIdx key (y :: rest)) y) := by
              rw [getD_default_irrel (y :: rest) _ x y hj]
          _ ≤ key z := ih y z hz'

theorem swapFront_cons_succ {γ : Type} (x : γ) (xs : List γ) (k : ℕ) :
    swapFront (x :: xs) (k + 1) = xs.getD k x :: xs.set k x := rfl

theorem perm_cons_middle {γ : Type} (a b : γ) (l₁ l₂ : List γ) :
    List.Perm (b :: (l₁ ++ a :: l₂)) (a :: (l₁ ++ b :: l₂)) := by
  refine List.Perm.trans (List.Perm.cons b List.perm_middle) ?_
  refine List.Perm.trans (List.Perm.swap a b _) ?_
  exact List.Perm.cons a List.perm_middle.symm

theorem swapFront_perm {γ : Type} :
    ∀ (x : γ) (xs : List γ) (k : ℕ), k < (x :: xs).length →
      List.Perm (swapFront (x :: xs) k) (x :: xs) := by
  intro x xs k
  cases k with
  | zero =>
    intro _
    exact List.Perm.refl _
  | succ k =>
    intro hk
    have hklt : k < xs.length := by
      simp only [List.length_cons] at hk
      omega
    rw [swapFront_cons_succ]
    have hgetD : xs.getD k x = xs.get ⟨k, hklt⟩ := by
      simp [List.getD_eq_getElem, hklt]
    have hset : xs.set k x = xs.take k ++ x :: xs.drop (k + 1) := by
      rw [List.set_eq_take_append_cons_drop, if_pos hklt]
    have hxs : xs = xs.take k ++ xs.get ⟨k, hklt⟩ :: xs.drop (k + 1) := by
      conv_lhs => rw [← List.take_append_drop k xs]
      congr 1
      exact List.drop_eq_get_cons hklt
    rw [hgetD, hset]
    conv_rhs => rw [hxs]
    exact perm_cons_middle x (xs.get ⟨k, hklt⟩) (xs.take k) (xs.drop (k + 1))

theorem swapFront_head {γ : Type} (x : γ) (xs : List γ) (k : ℕ) (y : γ) (ys : List γ)
    (h : swapFront (x :: xs) k = y :: ys) : y = (x :: xs).getD k x := by
  cases k with
  | zero =>
    have h0 : swapFront (x :: xs) 0 = x :: xs := rfl
    rw [h0] at h
    injection h with h1 _
    rw [List.getD_cons_zero]
    exact h1.symm
  | succ k =>
    rw [swapFront_cons_succ] at h
    injection h with h1 _
    rw [List.getD_cons_succ]
    exact h1.symm

theorem uheSortAux_succ_cons {γ : Type} (key : γ → α) (fuel : ℕ) (x : γ) (xs : List γ) :
    uheSortAux key (fuel + 1) (x :: xs) =
      match swapFront (x :: xs) (argminIdx key (x :: xs)) with
      | [] => []
      | y :: ys => y :: uheSortAux key fuel ys := rfl

theorem uheSortAux_perm {γ : Type} (key : γ → α) :
    ∀ (fuel : ℕ) (l : List γ), l.length ≤ fuel →
      List.Perm (uheSortAux key fuel l) l := by
  intro fuel
  induction fuel with
  | zero =>
    intro l h
    have h0 : l = [] := List.eq_nil_of_length_eq_zero (by omega)
    subst h0
    exact List.Perm.refl _
  | succ f ih =>
    intro l h
    cases l with
    | nil => exact List.Perm.refl _
    | cons x xs =>
      have hargmin := argminIdx_lt_length key (x :: xs) (by simp)
      have hperm := swapFront_perm x xs (argminIdx key (x :: xs)) hargmin
      rw [uheSortAux_succ_cons]
      cases hsw : swapFront (x :: xs) (argminIdx key (x :: xs)) with
      | nil =>
        rw [hsw] at hperm
        have hlen := hperm.length_eq
        simp at hlen
      | cons y ys =>
        rw [hsw] at hperm
        have hlen : ys.length ≤ f := by
          have := hperm.length_eq
          simp only [List.length_cons] at this h
          omega
        exact ((ih ys hlen).cons y).trans hperm

theorem uheSortAux_sorted {γ : Type} (key : γ → α) :
    ∀ (fuel : ℕ) (l : List γ), l.length ≤ fuel →
      List.Sorted (fun a b => key a ≤ key b) (uheSortAux key fuel l) := by
  intro fuel
  induction fuel with
  | zero =>
    intro l h
    have h0 : l = [] := List.eq_nil_of_length_eq_zero (by omega)
    subst h0
    exact List.sorted_nil
  | succ f ih =>
    intro l h
    cases l with
    | nil => exact List.sorted_nil
    | cons x xs =>
      have hargmin := argminIdx_lt_length key (x :: xs) (by simp)
      have hperm := swapFront_perm x xs (argminIdx key (x :: xs)) hargmin
      rw [uheSortAux_succ_cons]
      cases hsw : swapFront (x :: xs) (argminIdx key (x :: xs)) with
      | nil => exact List.sorted_nil
      | cons y ys =>
        rw [hsw] at hperm
        have hlen : ys.length ≤ f := by
          have := hperm.length_eq
          simp only [List.length_cons] at this h
          omega
        rw [List.sorted_cons]
        refine ⟨?_, ih ys hlen⟩
        intro b hb
        have hymin : ∀ z ∈ x :: xs, key y ≤ key z := by
          intro z hz
          rw [swapFront_head x xs (argminIdx key (x :: xs)) y ys hsw]
          exact argminIdx_min key x xs z hz
        have hb1 : b ∈ ys := (uheSortAux_perm key f ys hlen).mem_iff.mp hb
        have hb2 : b ∈ x :: xs := hperm.mem_iff.mp (List.mem_cons_of_mem y hb1)
        exact hymin b hb2

theorem zip_map_fst_snd {γ δ : Type} (l : List (γ × δ)) :
    (l.map Prod.fst).zip (l.map Prod.snd) = l := by
  induction l with
  | nil => rfl
  | cons p t ih => simp [ih]

/-- C7 (amended): after a successful complex-scalar `compute`, the
stored eigenvalues are in non-decreasing order of magnitude and each
eigenvector column stays matched to its eigenvalue (the sorted pairs
are a permutation of the pre-sort pairs); the companion counterexample
shows the swap-based selection sort is *not* stable on equal
magnitudes. -/
theorem uhe_sort_sorted_and_matched (cabs : Cplx α → α)
    (pairs : List (Cplx α × List (Cplx α))) :
    List.Sorted (fun p q : Cplx α × List (Cplx α) => cabs p.1 ≤ cabs q.1)
      (uheSortPairs (fun p => cabs p.1) pairs)
    ∧ List.Perm (uheSortPairs (fun p => cabs p.1) pairs) pairs
    ∧ ∀ (cschur : MatC α → Bool × MatC α × MatC α) (tnorm : MatC α → α)
        (eps minpos : α) (cnormC : List (Cplx α) → List (Cplx α)) (mat : MatC α),
        match uheComputeC cschur tnorm eps minpos cabs cnormC mat with
        | Except.ok s =>
            List.Sorted (fun u v : Cplx α => cabs u ≤ cabs v) s.eivalues
            ∧ List.Perm (s.eivalues.zip s.eivecCols)
                (uhePreSortPairs tnorm eps minpos cnormC
                  (cschur mat).2.1 (cschur mat).2.2 mat.rows)
        | Except.error _ => True := by
  refine ⟨uheSortAux_sorted (fun p : Cplx α × List (Cplx α) => cabs p.1) pairs.length pairs
      le_rfl,
    uheSortAux_perm (fun p : Cplx α × List (Cplx α) => cabs p.1) pairs.length pairs le_rfl,
    ?_⟩
  intro cschur tnorm eps minpos cnormC mat
  unfold uheComputeC
  by_cases h1 : mat.rows ≠ mat.cols
  · rw [if_pos h1]
    trivial
  · rw [if_neg h1]
    dsimp only
    by_cases h2 : (cschur mat).1 = true
    · rw [if_pos h2]
      dsimp only
      constructor
      · exact List.Pairwise.map Prod.fst (fun a b hab => hab)
          (uheSortAux_sorted (fun p : Cplx α × List (Cplx α) => cabs p.1) _ _ le_rfl)
      · rw [zip_map_fst_snd]
        exact uheSortAux_perm (fun p : Cplx α × List (Cplx α) => cabs p.1) _ _ le_rfl
    · rw [if_neg h2]
      trivial

/-- "Equal keys keep their original relative order": for every pair of
positions `i < j` in `l` carrying equal keys, the sorted list `l'` has
the two elements at positions `i' < j'` in the same order. -/
def pairOrderKept {γ : Type} [DecidableEq γ] (key : γ → α) (l l' : List γ) : Prop :=
  ∀ i j : Fin l.length, i.val < j.val → key (l.get i) = key (l.get j) →
    ∃ i' j' : Fin l'.length, i'.val < j'.val ∧ l'.get i' = l.get i ∧ l'.get j' = l.get j

instance {γ : Type} [DecidableEq γ] (key : γ → α) (l l' : List γ) :
    Decidable (pairOrderKept key l l') := by
  unfold pairOrderKept
  infer_instance

/-- C7 counterexample: `sortEigenvalues` on the Schur-diagonal order
`2, -2, 1` (the first two of equal magnitude) returns `1, -2, 2` — the
swap that moves `1` to the front sends `2` behind `-2`, so the sort is
not stable.  The three eigenvalues are real, so the `std::abs` key is
`|Re(·)|` here. -/
theorem uhe_sort_unstable_cex :
    uheSortPairs (fun p : Cplx ℚ × ℕ => |p.1.re|)
        [(⟨2, 0⟩, 0), (⟨-2, 0⟩, 1), (⟨1, 0⟩, 2)] =
      [(⟨1, 0⟩, 2), (⟨-2, 0⟩, 1), (⟨2, 0⟩, 0)]
    ∧ ¬ pairOrderKept (fun p : Cplx ℚ × ℕ => |p.1.re|)
        [(⟨2, 0⟩, 0), (⟨-2, 0⟩, 1), (⟨1, 0⟩, 2)]
        (uheSortPairs (fun p : Cplx ℚ × ℕ => |p.1.re|)
          [(⟨2, 0⟩, 0), (⟨-2, 0⟩, 1), (⟨1, 0⟩, 2)]) := by
  constructor
  · decide
  · decide

end Spectra
